import Mathlib

/-!
A shallow embedding, in Lean, of the `pyhdl` package: the fixed-width
modular-arithmetic `Shape`/`Value` layer (`pyhdl/value.py`), the
`Signal`/`EdgeCond` layer (`pyhdl/signal.py`), the cooperative
`Simulator` (`pyhdl/simulator.py`) and the `xtal` oscillator helper
(`pyhdl/common.py`), together with theorems settling the specification
claims about them.

Modelling conventions:
* Python integers are `Int`; raw residues (always non-negative in the
  source, stored in `Value._value`) are `Nat`.
* Python `%` on ints is floor-mod, i.e. `Int.fmod`; Python `//` is
  `Int.fdiv`; for non-negative operands these agree with the `Nat`
  operations used below.
* A Python function that can raise is embedded returning `Option`
  (when only one failure mode matters) or `Except PyErr` (when the
  error class matters); `none` / `.error e` means "raises".
* `math.floor(math.log2 n)` and `math.ceil(math.log2 n)` are embedded
  by the exact integer base-2 logarithms `flog2` / `clog2` below
  (defined by fuel recursion so that the kernel can evaluate them);
  floating-point inaccuracies of `math.log2` for huge inputs are
  outside this model.
* Mutation of a Python object is embedded as returning the updated
  record; "the operand is not mutated" is inherent in this style.
-/

/-- The Python exception classes raised by the sources:
`ValueError` (also covering `math` domain errors, which are
`ValueError`s in Python), `OverflowError`, `TypeError`,
`ZeroDivisionError`. -/
inductive PyErr where
  | valueError
  | overflowError
  | typeError
  | zeroDivisionError
deriving DecidableEq, Repr

/-- Fuel-driven floor of `log2` (`flog2 n = ⌊log2 n⌋` for `1 ≤ n`,
`flog2 0 = 0`); the fuel argument only serves structural recursion. -/
def flog2_fuel : Nat → Nat → Nat
  | 0, _ => 0
  | fuel + 1, n => if n ≤ 1 then 0 else flog2_fuel fuel (n / 2) + 1

/-- Exact `⌊log2 n⌋`, kernel-computable. -/
def flog2 (n : Nat) : Nat := flog2_fuel n n

/-- Fuel-driven ceiling of `log2` (`clog2 n = ⌈log2 n⌉` for `1 ≤ n`). -/
def clog2_fuel : Nat → Nat → Nat
  | 0, _ => 0
  | fuel + 1, n => if n ≤ 1 then 0 else clog2_fuel fuel ((n + 1) / 2) + 1

/-- Exact `⌈log2 n⌉`, kernel-computable. -/
def clog2 (n : Nat) : Nat := clog2_fuel n n

theorem flog2_fuel_spec (fuel : Nat) : ∀ n : Nat, 1 ≤ n → n ≤ fuel →
    2 ^ flog2_fuel fuel n ≤ n ∧ n < 2 ^ (flog2_fuel fuel n + 1) := by
  induction fuel with
  | zero => intro n h1 h2; omega
  | succ fuel ih =>
    intro n h1 h2
    by_cases hn : n ≤ 1
    · have : n = 1 := by omega
      subst this
      simp [flog2_fuel]
    · have h2' : 2 ≤ n := by omega
      have hrec : 1 ≤ n / 2 := by omega
      have hfuel : n / 2 ≤ fuel := by omega
      obtain ⟨ihl, ihr⟩ := ih (n / 2) hrec hfuel
      have hstep : flog2_fuel (fuel + 1) n = flog2_fuel fuel (n / 2) + 1 := by
        simp [flog2_fuel, hn]
      rw [hstep]
      constructor
      · calc 2 ^ (flog2_fuel fuel (n / 2) + 1)
            = 2 ^ flog2_fuel fuel (n / 2) * 2 := by rw [Nat.pow_succ]
          _ ≤ (n / 2) * 2 := by omega
          _ ≤ n := by omega
      · have : 2 ^ (flog2_fuel fuel (n / 2) + 1 + 1)
            = 2 ^ (flog2_fuel fuel (n / 2) + 1) * 2 := by rw [Nat.pow_succ]
        omega

theorem flog2_spec (n : Nat) (h : 1 ≤ n) :
    2 ^ flog2 n ≤ n ∧ n < 2 ^ (flog2 n + 1) :=
  flog2_fuel_spec n n h (Nat.le_refl n)

theorem flog2_eq_log (n : Nat) : Nat.log 2 n = flog2 n := by
  rcases Nat.eq_zero_or_pos n with h | h
  · subst h
    simp [flog2, flog2_fuel]
  · obtain ⟨h1, h2⟩ := flog2_spec n h
    exact Nat.log_eq_of_pow_le_of_lt_pow h1 h2

theorem clog2_fuel_one (fuel : Nat) : clog2_fuel fuel 1 = 0 := by
  cases fuel <;> simp [clog2_fuel]

theorem clog2_fuel_spec (fuel : Nat) : ∀ n : Nat, 2 ≤ n → n ≤ fuel →
    (1 ≤ clog2_fuel fuel n ∧
      2 ^ (clog2_fuel fuel n - 1) < n ∧ n ≤ 2 ^ clog2_fuel fuel n) := by
  induction fuel with
  | zero => intro n h1 h2; omega
  | succ fuel ih =>
    intro n h1 h2
    have hn : ¬ n ≤ 1 := by omega
    have hstep : clog2_fuel (fuel + 1) n = clog2_fuel fuel ((n + 1) / 2) + 1 := by
      simp [clog2_fuel, hn]
    rw [hstep]
    by_cases hm : (n + 1) / 2 ≤ 1
    · have hn2 : n = 2 := by omega
      have h1' : (n + 1) / 2 = 1 := by omega
      rw [h1', clog2_fuel_one]
      subst hn2
      simp
    · have hm2 : 2 ≤ (n + 1) / 2 := by omega
      have hmf : (n + 1) / 2 ≤ fuel := by omega
      obtain ⟨ih1, ih2, ih3⟩ := ih ((n + 1) / 2) hm2 hmf
      set c := clog2_fuel fuel ((n + 1) / 2) with hc
      have hc1 : c - 1 + 1 = c := by omega
      have hpow : 2 ^ c = 2 ^ (c - 1) * 2 := by
        calc 2 ^ c = 2 ^ (c - 1 + 1) := by rw [hc1]
          _ = 2 ^ (c - 1) * 2 := Nat.pow_succ ..
      have hpow2 : 2 ^ (c + 1) = 2 ^ c * 2 := Nat.pow_succ ..
      refine ⟨by omega, ?_, ?_⟩
      · have h' : c + 1 - 1 = c := by omega
        rw [h']
        omega
      · omega

theorem clog2_spec (n : Nat) (h : 2 ≤ n) :
    1 ≤ clog2 n ∧ 2 ^ (clog2 n - 1) < n ∧ n ≤ 2 ^ clog2 n :=
  clog2_fuel_spec n n h (Nat.le_refl n)

theorem clog2_eq_clog (n : Nat) : Nat.clog 2 n = clog2 n := by
  rcases Nat.lt_or_ge n 2 with h | h
  · interval_cases n
    · simp [clog2, clog2_fuel]
    · simp [clog2, clog2_fuel_one]
  · obtain ⟨h1, h2, h3⟩ := clog2_spec n h
    have hle : Nat.clog 2 n ≤ clog2 n := (Nat.le_pow_iff_clog_le (by omega)).mp h3
    have hgt : ¬ Nat.clog 2 n ≤ clog2 n - 1 := by
      intro hcon
      have := (@Nat.le_pow_iff_clog_le 2 (by omega) n (clog2 n - 1)).mpr hcon
      omega
    omega

/-- `Shape` from `pyhdl/value.py`: a signed/unsigned fixed bit width.
The dataclass compares by `(signed, n_bits)`; `modulo`, `min`, `max`
are derived in `__post_init__` and embedded as functions below. -/
structure Shape where
  signed : Bool
  n_bits : Nat
deriving DecidableEq, Repr

/-- `Signed(n)` subclass constructor. -/
def Signed (n : Nat) : Shape := ⟨true, n⟩

/-- `Unsigned(n)` subclass constructor. -/
def Unsigned (n : Nat) : Shape := ⟨false, n⟩

/-- `self.modulo = 0b01 << self.n_bits`. -/
def Shape.modulo (s : Shape) : Nat := 2 ^ s.n_bits

/-- `self.max`: `2^n_bits − 1` unsigned, `2^(n_bits−1) − 1` signed
(from `Shape.__post_init__`). -/
def Shape.maxv (s : Shape) : Int :=
  if s.signed then 2 ^ (s.n_bits - 1) - 1 else 2 ^ s.n_bits - 1

/-- `Shape.from_range` (`value.py` lines 54-80).  The iterable is a
`List Int`; `minimal`/`maximal` are its min/max.  `none` models the
`ValueError` that `math.log2` raises on a non-positive argument (the
empty iterable leaves `minimal = inf`, `maximal = -inf`, and
`math.log2 (-inf)` likewise raises). -/
def Shape.from_range (l : List Int) : Option Shape :=
  match l with
  | [] => none
  | x :: xs =>
    let minimal := xs.foldl min x
    let maximal := xs.foldl max x
    if 0 ≤ minimal then
      if maximal = 0 ∨ maximal = 1 then some (Unsigned 1)
      else some (Unsigned (flog2 maximal.toNat + 1))
    else
      if minimal = -1 then
        if maximal = 0 ∨ maximal = 1 then some (Signed 2)
        else if maximal + 1 ≤ 0 then none
        else some (Signed (clog2 (maximal + 1).toNat + 1))
      else
        let n_bits_neg := clog2 (-minimal).toNat + 1
        if maximal ≤ 1 then some (Signed n_bits_neg)
        else some (Signed (max n_bits_neg (clog2 (maximal + 1).toNat + 1)))

/-- `Shape.from_n(*args) = Shape.from_range(args)`. -/
def Shape.from_n (args : List Int) : Option Shape := Shape.from_range args

/-- `Value` from `pyhdl/value.py`: the non-negative residue `_value`
(called `raw_value` here, after the accessor property) plus its
`Shape`. -/
structure Value where
  raw_value : Nat
  shape : Shape
deriving DecidableEq, Repr

/-- `Value.__init__(value, shape)` with an explicit shape:
`value %= shape.modulo` (Python floor-mod, non-negative result). -/
def Value.make (n : Int) (s : Shape) : Value :=
  ⟨(n.fmod (s.modulo : Int)).toNat, s⟩

/-- `Value.__init__(value)` with `shape=None`: the shape is inferred by
`Shape.from_n(value)`; `none` models the `ValueError` escaping
`from_range` (which happens exactly at `value = -1`). -/
def Value.auto (n : Int) : Option Value :=
  (Shape.from_n [n]).map (Value.make n)

/-- The `value` property: the signed reinterpretation of the raw
residue (`value -= modulo` when `value > max`). -/
def Value.value (v : Value) : Int :=
  if (v.raw_value : Int) > v.shape.maxv
  then (v.raw_value : Int) - (v.shape.modulo : Int)
  else (v.raw_value : Int)

/-- `Value.set_value`: `self._value = value % self.modulo` (shape kept). -/
def Value.set_value (v : Value) (n : Int) : Value :=
  ⟨(n.fmod (v.shape.modulo : Int)).toNat, v.shape⟩

/-- `Value.binary_op_raw(self, other, func)` for a `Value` operand:
`Value(func(self._value, other._value))` with auto-inferred shape.
Both raw residues are non-negative, so they are passed as `Nat`. -/
def Value.binary_op_raw (a b : Value) (f : Nat → Nat → Int) : Option Value :=
  Value.auto (f a.raw_value b.raw_value)

/-- `Value.__neg__`: `Value(self.modulo - self._value, shape=self.shape)`
(the only arithmetic op that keeps the operand's shape). -/
def Value.neg (a : Value) : Value :=
  Value.make ((a.shape.modulo : Int) - (a.raw_value : Int)) a.shape

/-- `Value.__add__`: raw-domain addition. -/
def Value.add (a b : Value) : Option Value :=
  a.binary_op_raw b fun x y => (x : Int) + (y : Int)

/-- `Value.__sub__`: `self + (-other)`. -/
def Value.sub (a b : Value) : Option Value := a.add b.neg

/-- `Value.__mul__`: raw-domain multiplication. -/
def Value.mul (a b : Value) : Option Value :=
  a.binary_op_raw b fun x y => (x : Int) * (y : Int)

/-- `Value.__floordiv__`: raw-domain floor division; Python raises
`ZeroDivisionError` on a zero divisor (modelled as `none`), and on
non-negative ints `//` is `Nat` division. -/
def Value.floordiv (a b : Value) : Option Value :=
  if b.raw_value = 0 then none
  else a.binary_op_raw b fun x y => ((x / y : Nat) : Int)

/-- `Value.__and__`: raw-domain bitwise and. -/
def Value.land (a b : Value) : Option Value :=
  a.binary_op_raw b fun x y => ((x &&& y : Nat) : Int)

/-- `Value.__or__`: raw-domain bitwise or. -/
def Value.lor (a b : Value) : Option Value :=
  a.binary_op_raw b fun x y => ((x ||| y : Nat) : Int)

/-- `Value.__xor__`: raw-domain bitwise xor. -/
def Value.lxor (a b : Value) : Option Value :=
  a.binary_op_raw b fun x y => ((x ^^^ y : Nat) : Int)

/-- The unsigned shape `Shape.from_n` infers for a single non-negative
integer (1 bit for 0 and 1, else `⌊log2 n⌋ + 1` bits); used to state
what the auto-shape rule produces on raw-domain results. -/
def Shape.unsigned_for (n : Nat) : Shape :=
  if n ≤ 1 then Unsigned 1 else Unsigned (flog2 n + 1)

theorem from_range_single_nonneg (n : Nat) :
    Shape.from_range [(n : Int)] = some (Shape.unsigned_for n) := by
  simp only [Shape.from_range, List.foldl, Shape.unsigned_for]
  by_cases h : n ≤ 1
  · have h1 : ((n : Int) = 0 ∨ (n : Int) = 1) := by omega
    rw [if_pos (by omega : (0 : Int) ≤ (n : Int)), if_pos h1, if_pos h]
  · have h1 : ¬ ((n : Int) = 0 ∨ (n : Int) = 1) := by omega
    rw [if_pos (by omega : (0 : Int) ≤ (n : Int)), if_neg h1, if_neg h]
    rfl

theorem value_auto_ofNat (n : Nat) :
    Value.auto (n : Int) = some ⟨n, Shape.unsigned_for n⟩ := by
  have hlt : n < 2 ^ (Shape.unsigned_for n).n_bits := by
    by_cases h : n ≤ 1
    · simp [Shape.unsigned_for, h, Unsigned]
      omega
    · obtain ⟨_, h2⟩ := flog2_spec n (by omega)
      simp [Shape.unsigned_for, h, Unsigned]
      exact h2
  have hmod : ((n : Int).fmod (((Shape.unsigned_for n).modulo : Nat) : Int)).toNat = n := by
    have hm : (((Shape.unsigned_for n).modulo : Nat) : Int)
        = (2 : Int) ^ (Shape.unsigned_for n).n_bits := by
      simp [Shape.modulo]
    rw [hm, Int.fmod_eq_emod _ (by positivity),
      Int.emod_eq_of_lt (by omega) (by exact_mod_cast hlt)]
    exact Int.toNat_ofNat n
  simp only [Value.auto, Shape.from_n, from_range_single_nonneg, Option.map]
  simp only [Value.make]
  rw [hmod]

/-- `Value.parse_slice` (`value.py` lines 222-241) for a slice
`[high:low]` with both endpoints given (`item.start = high`,
`item.stop = low`).  Returns `(start, stop) = (low, high + 1)`; the
constant `step = 1` is dropped.  `ValueError` when `low > high`,
`OverflowError` when an endpoint exceeds `n_bits` (strictly) or
`low < 0` — note the source compares with `>`, so `high = n_bits`
passes. -/
def Value.parse_slice (v : Value) (high low : Int) : Except PyErr (Int × Int) :=
  if low > high then .error .valueError
  else if high > (v.shape.n_bits : Int) ∨ low > (v.shape.n_bits : Int) then
    .error .overflowError
  else if low < 0 then .error .overflowError
  else .ok (low, high + 1)

/-- The bit-extraction loop of `Value.__getitem__`: starting from
`value = raw >> start`, for `i in range(start, stop)` (so `w`
iterations, `i = start + j`) it breaks once `i ≥ n_bits` and otherwise
ors `(value & 1) * mask` into the result with `mask = 2^j`.  Because
`start + j` is increasing, the `break` is equivalent to skipping the
remaining iterations, which is how it is written here. -/
def sliceBits (raw start w n : Nat) : Nat :=
  (List.range w).foldl
    (fun acc j =>
      if start + j < n then acc ||| (((raw >>> (start + j)) &&& 1) <<< j) else acc)
    0

/-- `Value.__getitem__` on a `[high:low]` slice: extracts
`bit_width = stop - start` bits and wraps them as
`Value(result_value, shape=Unsigned(bit_width))` (always unsigned). -/
def Value.slice (v : Value) (high low : Int) : Except PyErr Value :=
  (v.parse_slice high low).map fun p =>
    let bit_width := (p.2 - p.1).toNat
    Value.make (sliceBits v.raw_value p.1.toNat bit_width v.shape.n_bits : Nat)
      (Unsigned bit_width)

/-- Python's bitwise `&` between an arbitrary int `a` and a
non-negative int `b` (CPython semantics: negative ints behave as
infinite two's-complement bit strings).  Since every set bit of `b`
sits strictly below position `b + 1`, the bits of `a` only matter
modulo `2 ^ (b + 1)`. -/
def pyAnd (a : Int) (b : Nat) : Nat :=
  if 0 ≤ a then a.toNat &&& b
  else (a.fmod ((2 ^ (b + 1) : Nat) : Int)).toNat &&& b

/-- `Value.__setitem__` (`value.py` lines 269-291) on a `[high:low]`
slice.  A bare integer is first wrapped as `Value(value)` (auto
shape — this is where `-1` raises); if the wrapped value's width
exceeds the target slice width the raw residue is truncated modulo
`2^width`; the result is shifted into place and merged with
`(self.value & mask)`, where `self.value` is the *signed*
interpretation and `mask` clears the target bits inside `n_bits`. -/
def Value.slice_assign (v : Value) (high low : Int) (x : Int) : Except PyErr Value :=
  match Value.auto x with
  | none => .error .valueError
  | some xv =>
    (v.parse_slice high low).map fun p =>
      let target_bit_width := (p.2 - p.1).toNat
      let value0 : Nat :=
        if target_bit_width < xv.shape.n_bits
        then xv.raw_value % (1 <<< target_bit_width)
        else xv.raw_value
      let value1 : Nat := value0 <<< p.1.toNat
      let mask0 : Nat := ((1 <<< target_bit_width) - 1) <<< p.1.toNat
      let mask1 : Nat := mask0 ^^^ (v.shape.modulo - 1)
      ⟨pyAnd v.value mask1 ||| value1, v.shape⟩

/-- `Signal.prev`: either the raw Python int passed to the constructor
(before any `set_value`) or the `Value` copy installed by
`set_value` / by an edge-condition evaluation. -/
inductive Prev where
  | pi (n : Int)
  | pv (v : Value)
deriving DecidableEq, Repr

/-- The mutable state of a `Signal` (`pyhdl/signal.py`): the current
`Value` `_value` and the `prev` marker. -/
structure SigState where
  val : Value
  prev : Prev
deriving DecidableEq, Repr

/-- `Signal.__init__(value)` with `n_bits=None`, `signed=False`:
`shape = Shape.from_n(value, 0)` (the `extra = 0` sentinel),
`_value = Value(value, shape)`, `prev = value` (the bare int). -/
def Signal.new (n : Int) : Option SigState :=
  (Shape.from_n [n, 0]).map fun s => ⟨Value.make n s, Prev.pi n⟩

/-- `Signal.set_value`: `self.prev = self._value[:]` (a full-width
unsigned slice copy of the current value) and then
`self._value.set_value(value)`. -/
def SigState.set_value (s : SigState) (n : Int) : Except PyErr SigState :=
  (s.val.slice ((s.val.shape.n_bits : Int) - 1) 0).map fun c =>
    ⟨s.val.set_value n, Prev.pv c⟩

/-- The three edge kinds of `EdgeType` (`POS`/`NEG`/`ANY`). -/
inductive EdgeType where
  | pos
  | neg
  | any
deriving DecidableEq, Repr

/-- `EdgeCond.__call__`: computes `diff = self.signal - self.signal.prev`
(which is `Signal.__sub__`, i.e. `self + (-prev)`, landing in
`Value.binary_op_raw` — against the previous `Value`'s negation when
`prev` is a `Value`, or against the plain negated int otherwise), then
sets `signal.prev` to the signal's current `Value` and returns
`diff > 0` / `diff < 0` / `diff != 0` according to the edge type.
The comparisons go through `Value.binary_op` on the *signed*
interpretation `diff.value`; the returned object's truthiness (via
`Value.__bool__` / the default `__ne__`) is the Boolean returned
here.  `none` models a `ValueError` escaping the auto-shape
inference inside the subtraction. -/
def EdgeCond.call (t : EdgeType) (s : SigState) : Option (Bool × SigState) :=
  let diffO : Option Value :=
    match s.prev with
    | Prev.pv v => s.val.add v.neg
    | Prev.pi n => Value.auto ((s.val.raw_value : Int) - n)
  diffO.map fun diff =>
    (match t with
      | EdgeType.pos => decide (0 < diff.value)
      | EdgeType.neg => decide (diff.value < 0)
      | EdgeType.any => decide (diff.value ≠ 0),
    SigState.mk s.val (Prev.pv s.val))

/-- A task's single-resume output, as the `Simulator` sees it: a
`BaseEvent` (identified by a number), some non-event value (e.g. the
`None` a bare `yield` produces), or a tuple/list of outputs. -/
inductive Out where
  | ev (id : Nat)
  | junk
  | node (xs : List Out)

mutual

/-- `flatten(results, guard=isinstance(·, BaseEvent))`
(`simulator.py` lines 23-30): depth-first, left-to-right; yields the
`BaseEvent` leaves, drops other non-sequence leaves, recurses into
tuples/lists. -/
def flattenE : Out → List Nat
  | Out.ev i => [i]
  | Out.junk => []
  | Out.node xs => flattenL xs

/-- `flatten` over the elements of a tuple/list, in order. -/
def flattenL : List Out → List Nat
  | [] => []
  | o :: os => flattenE o ++ flattenL os

end

/-- A cooperative task: the list of outputs it yields on successive
resumes; an exhausted list means the generator raises
`StopIteration`. -/
def SimTask := List Out

/-- The `Simulator` state: the ordered list of live iterables and the
tick counter `time`. -/
structure Sim where
  iterables : List SimTask
  time : Nat

/-- The core of `Simulator.next` (`simulator.py` lines 41-53): resume
each iterable in order; an exhausted one is dropped (`StopIteration`),
otherwise its output is flattened (keeping only `BaseEvent`s) and
appended to `events` and the iterable survives in order.  Returns
`(events, surviving iterables)`. -/
def simNextCore : List SimTask → List Nat × List SimTask
  | [] => ([], [])
  | t :: ts =>
    let rest := simNextCore ts
    match t with
    | [] => rest
    | o :: os => (flattenE o ++ rest.1, os :: rest.2)

/-- One observable step of the simulation, for stating ordering
properties: resuming the task at a given position of the current
round's list, or calling `trigger()` on an event. -/
inductive Act where
  | resume (k : Nat)
  | trig (id : Nat)
deriving DecidableEq, Repr

/-- One iteration of the `while` loop in `Simulator.run`:
`events = self.next()` — which resumes every live iterable, in list
order, collecting events without triggering anything — followed by
`event.trigger()` for each flattened event in order, and
`self.time += 1`.  The returned trace records the temporal order:
all the resumes of the round first, then the `trigger()` calls. -/
def roundActs (s : Sim) : List Act × Sim :=
  let p := simNextCore s.iterables
  ((List.range s.iterables.length).map Act.resume ++ p.1.map Act.trig,
    Sim.mk p.2 (s.time + 1))

/-- The `while True` loop of `Simulator.run` with a (non-`None`)
`duration`: breaks as soon as `self.time >= duration`, otherwise runs
one round and continues. -/
def runLoop (s : Sim) (duration : Nat) : List Act × Sim :=
  if duration ≤ s.time then ([], s)
  else
    let r := roundActs s
    let rest := runLoop r.2 duration
    (r.1 ++ rest.1, rest.2)
termination_by duration - s.time
decreasing_by
  simp only [roundActs]
  omega

/-- `Simulator.run(duration)` (`simulator.py` lines 55-71): reset
`self.time = 0`, run the loop, then perform one extra bare
`self.next()` — its resumes happen (and finished tasks are dropped)
but the events it returns are discarded, nothing is triggered, and
`time` is not incremented. -/
def Simulator.run (s : Sim) (d : Nat) : List Act × Sim :=
  let r := runLoop (Sim.mk s.iterables 0) d
  (r.1 ++ (List.range r.2.iterables.length).map Act.resume,
    Sim.mk (simNextCore r.2.iterables).2 r.2.time)

/-- The normalization and phase handling of `xtal`
(`pyhdl/common.py` lines 13-56), up to the point where the generator
is returned: resolves `(low, high, period)` from the optional
arguments and reduces `phase` modulo the period (Python `%`, i.e.
floor-mod).  Error cases: `ValueError` when none of the three is
given; `TypeError` when `period` and `high` are given but `low` is
not (`high = period - low` with `low = None`); `ZeroDivisionError`
from `phase %= period` when the resolved period is `0`.  The returned
quadruple is `(low, high, period, phase)`; the reduced phase is the
number of times the oscillator generator is pre-resumed before being
returned. -/
def xtal_resolve (low high period : Option Int) (phase : Int) :
    Except PyErr (Int × Int × Int × Int) :=
  match low, high, period with
  | none, none, none => .error .valueError
  | lo, hi, pe =>
    let lhp : Except PyErr (Int × Int × Int) :=
      match pe with
      | none =>
        -- period is None: absent one of low/high defaults to the other
        match lo, hi with
        | none, none => .error .valueError  -- unreachable: all-None was excluded
        | some l, none => .ok (l, l, l + l)
        | none, some h => .ok (h, h, h + h)
        | some l, some h => .ok (l, h, l + h)
      | some p =>
        -- period given: `high = period - low` always, `low` defaulted
        -- only when both `low` and `high` are absent
        match lo, hi with
        | none, none => .ok (p.fdiv 2, p - p.fdiv 2, p)
        | none, some _ => .error .typeError
        | some l, _ => .ok (l, p - l, p)
    match lhp with
    | .error e => .error e
    | .ok (l, h, p) =>
      if p = 0 then .error .zeroDivisionError
      else .ok (l, h, p, phase.fmod p)

theorem unsigned_for_eq (n : Nat) :
    Shape.unsigned_for n = Unsigned (Nat.log 2 n + 1) := by
  by_cases h : n ≤ 1
  · have hl : Nat.log 2 n = 0 := by
      interval_cases n
      · exact Nat.log_zero_right 2
      · exact Nat.log_one_right 2
    rw [hl]
    simp [Shape.unsigned_for, h]
  · simp [Shape.unsigned_for, h, flog2_eq_log]

theorem clog_succ_eq_log_succ (n : Nat) (h : 1 ≤ n) :
    Nat.clog 2 (n + 1) = Nat.log 2 n + 1 := by
  have h1 : 2 ^ Nat.log 2 n ≤ n := Nat.pow_log_le_self 2 (by omega)
  have h2 : n < 2 ^ (Nat.log 2 n + 1) := Nat.lt_pow_succ_log_self (by omega) n
  have hle : Nat.clog 2 (n + 1) ≤ Nat.log 2 n + 1 :=
    (@Nat.le_pow_iff_clog_le 2 (by omega) (n + 1) (Nat.log 2 n + 1)).mp (by omega)
  have hgt : ¬ Nat.clog 2 (n + 1) ≤ Nat.log 2 n := by
    intro hcon
    have := (@Nat.le_pow_iff_clog_le 2 (by omega) (n + 1) (Nat.log 2 n)).mpr hcon
    omega
  omega

/-- C8: `Shape.from_range` on a singleton `{n}` with `n ≥ 0` yields an
unsigned shape of width `⌊log2 n⌋ + 1` (this uniform formula also gives
the claimed width 1 for `n ∈ {0,1}`, since `log2 0 = log2 1 = 0` here),
and on `{-1, n}` a signed shape of width `⌊log2 n⌋ + 2` (width 2 for
`n ∈ {0,1}`). -/
theorem C8_from_range_widths (n : Nat) :
    Shape.from_range [(n : Int)] = some (Unsigned (Nat.log 2 n + 1)) ∧
    Shape.from_range [-1, (n : Int)] = some (Signed (Nat.log 2 n + 2)) := by
  refine ⟨?_, ?_⟩
  · rw [from_range_single_nonneg, unsigned_for_eq]
  · by_cases h : n ≤ 1
    · have hl : Nat.log 2 n = 0 := by
        interval_cases n
        · exact Nat.log_zero_right 2
        · exact Nat.log_one_right 2
      rw [hl]
      interval_cases n <;> rfl
    · have hmin : min (-1 : Int) (n : Int) = -1 := by omega
      have hmax : max (-1 : Int) (n : Int) = (n : Int) := by omega
      simp only [Shape.from_range, List.foldl_cons, List.foldl_nil, hmin, hmax]
      rw [if_neg (by omega : ¬ (0 : Int) ≤ -1), if_pos trivial,
        if_neg (by omega : ¬ ((n : Int) = 0 ∨ (n : Int) = 1)),
        if_neg (by omega : ¬ (n : Int) + 1 ≤ 0)]
      have ht : ((n : Int) + 1).toNat = n + 1 := by omega
      rw [ht, ← clog2_eq_clog, clog_succ_eq_log_succ n (by omega)]

theorem runLoop_stop (s : Sim) (d : Nat) (h : d ≤ s.time) :
    runLoop s d = ([], s) := by
  rw [runLoop]
  simp [h]

theorem runLoop_step (s : Sim) (d : Nat) (h : s.time < d) :
    runLoop s d = ((roundActs s).1 ++ (runLoop (roundActs s).2 d).1,
      (runLoop (roundActs s).2 d).2) := by
  rw [runLoop]
  simp [show ¬ d ≤ s.time by omega]

theorem roundActs_time (s : Sim) : (roundActs s).2.time = s.time + 1 := rfl

theorem runLoop_time : ∀ (k : Nat) (s : Sim) (d : Nat), d - s.time ≤ k →
    s.time ≤ d → (runLoop s d).2.time = d := by
  intro k
  induction k with
  | zero =>
    intro s d hk hle
    rw [runLoop_stop s d (by omega)]
    show s.time = d
    omega
  | succ k ih =>
    intro s d hk hle
    by_cases h : d ≤ s.time
    · rw [runLoop_stop s d h]
      show s.time = d
      omega
    · rw [runLoop_step s d (by omega)]
      show (runLoop (roundActs s).2 d).2.time = d
      have ht := roundActs_time s
      apply ih
      · omega
      · omega

/-- C10: `Simulator.run(d)` resets `self.time` to 0 on entry, so after
it returns the tick counter is exactly `d`, whatever it was before. -/
theorem C10_run_resets_time (s : Sim) (d : Nat) :
    (Simulator.run s d).2.time = d := by
  show (runLoop (Sim.mk s.iterables 0) d).2.time = d
  exact runLoop_time d (Sim.mk s.iterables 0) d
    (by show d - 0 ≤ d; omega) (by show 0 ≤ d; omega)

/-- C7 (amended): `parse_slice` raises `ValueError` (`InvalidRange`)
exactly when `low > high`; otherwise it raises `OverflowError`
(`OutOfBounds`) exactly when `high > n_bits`, `low > n_bits` or
`low < 0` — the source compares with strict `>`, so `high = n_bits`
(and with it `low = n_bits`) is accepted; otherwise it succeeds. -/
theorem C7_parse_slice_conditions (v : Value) (high low : Int) :
    (v.parse_slice high low = .error .valueError ↔ low > high) ∧
    (v.parse_slice high low = .error .overflowError ↔
      (low ≤ high ∧
        (high > (v.shape.n_bits : Int) ∨ low > (v.shape.n_bits : Int) ∨ low < 0))) ∧
    (v.parse_slice high low = .ok (low, high + 1) ↔
      (low ≤ high ∧ high ≤ (v.shape.n_bits : Int) ∧ 0 ≤ low)) := by
  unfold Value.parse_slice
  refine ⟨?_, ?_, ?_⟩ <;> split_ifs with h1 h2 h3 <;> simp_all <;> omega

/-- C7, counterexample to the claimed boundary: on a 4-bit value the
call `v[4:0]` — `high = n_bits` — does **not** fail: `parse_slice`
accepts it and the slice returns a width-5 unsigned copy. -/
theorem C7_boundary_cex :
    (Value.mk 11 (Unsigned 4)).parse_slice 4 0 = .ok (0, 5) ∧
    (Value.mk 11 (Unsigned 4)).slice 4 0 = .ok (Value.mk 11 (Unsigned 5)) :=
  ⟨rfl, rfl⟩

/-- The state of `Signal(0)` after `set_value(1)` and then
`set_value(0)`: the signal held raw value 1 and was written to raw
value 0 (the scenario of the falling-edge claim). -/
def sigScenario : Option SigState :=
  (Signal.new 0).bind fun s0 =>
    (s0.set_value 1).toOption.bind fun s1 => (s1.set_value 0).toOption

/-- C2: evaluation of the code at the claim's scenario.  After the
signal held raw 1 and was written to raw 0 (state recorded by the last
two conjuncts: current raw residue 0, `prev` a width-1 `Value` with
raw residue 1), the code returns **true** for a `POS` condition and
**false** for a `NEG` condition — the opposite of the claim — because
`diff = signal - prev` is computed by modular `Value` arithmetic
(`0 - 1` becomes `0 + (2 - 1) = 1` at width 1) and its auto-inferred
shape is unsigned, so `diff` can never be negative. -/
theorem C2_edge_after_falling_write :
    (sigScenario.bind fun s => (EdgeCond.call EdgeType.pos s).map Prod.fst)
      = some true ∧
    (sigScenario.bind fun s => (EdgeCond.call EdgeType.neg s).map Prod.fst)
      = some false ∧
    (sigScenario.map fun s => s.val.raw_value) = some 0 ∧
    (sigScenario.map fun s => s.prev) = some (Prev.pv (Value.mk 1 (Unsigned 1))) :=
  ⟨rfl, rfl, rfl, rfl⟩

/-- C9 (amended): configuration handling of `xtal`.  No parameter at
all raises `ValueError`; `period` together with `high` but without
`low` raises `TypeError` (`high = period - low` hits `None`); when
`period` is given, any passed `high` is ignored and recomputed as
`period - low` (with `low = period // 2` only when both `low` and
`high` are absent); when `period` is absent the missing one of
`low`/`high` defaults to the other and `period = low + high`; a
resolved period of 0 raises `ZeroDivisionError` at `phase %= period`;
otherwise the phase is reduced modulo the period (Python floor-mod)
and used as the number of pre-resumes of the returned generator. -/
theorem C9_xtal_config (lo hi pe ph : Int) :
    (xtal_resolve none none none ph = .error .valueError) ∧
    (xtal_resolve none (some hi) (some pe) ph = .error .typeError) ∧
    (pe ≠ 0 →
      xtal_resolve none none (some pe) ph
        = .ok (pe.fdiv 2, pe - pe.fdiv 2, pe, ph.fmod pe)) ∧
    (∀ hi2 : Option Int, pe ≠ 0 →
      xtal_resolve (some lo) hi2 (some pe) ph
        = .ok (lo, pe - lo, pe, ph.fmod pe)) ∧
    (lo + lo ≠ 0 →
      xtal_resolve (some lo) none none ph
        = .ok (lo, lo, lo + lo, ph.fmod (lo + lo))) ∧
    (hi + hi ≠ 0 →
      xtal_resolve none (some hi) none ph
        = .ok (hi, hi, hi + hi, ph.fmod (hi + hi))) ∧
    (lo + hi ≠ 0 →
      xtal_resolve (some lo) (some hi) none ph
        = .ok (lo, hi, lo + hi, ph.fmod (lo + hi))) ∧
    (xtal_resolve (some lo) (some hi) none ph = .error .zeroDivisionError
      ↔ lo + hi = 0) := by
  refine ⟨rfl, rfl, fun h => ?_, fun hi2 h => ?_, fun h => ?_, fun h => ?_,
    fun h => ?_, ?_⟩
  · simp [xtal_resolve, h]
  · cases hi2 <;> simp [xtal_resolve, h]
  · simp [xtal_resolve, h]
  · simp [xtal_resolve, h]
  · simp [xtal_resolve, h]
  · constructor
    · intro hcon
      by_cases h : lo + hi = 0
      · exact h
      · simp [xtal_resolve, h] at hcon
    · intro h
      simp [xtal_resolve, h]

/-- C9, witness: a call with `low` and `period` given succeeds (and
ignores the passed `high`), with the phase reduced modulo the
period. -/
theorem C9_xtal_config_w :
    xtal_resolve (some 1) (some 99) (some 4) 5 = .ok (1, 3, 4, 1) :=
  (C9_xtal_config 1 99 4 5).2.2.2.1 (some 99) (by decide)

/-- C9, counterexample: giving `high` and `period` but not `low` — a
call in which "at least one of them is given" — does *not* return a
task; it raises `TypeError` from `high = period - low` with
`low = None`. -/
theorem C9_xtal_cex :
    xtal_resolve none (some 3) (some 4) 0 = .error .typeError := rfl

theorem value_make_ofNat (m : Nat) (s : Shape) :
    Value.make ((m : Nat) : Int) s = ⟨m % s.modulo, s⟩ := by
  unfold Value.make
  congr 1
  have hM : 0 < s.modulo := Nat.pos_pow_of_pos s.n_bits (by omega)
  rw [Int.fmod_eq_emod _ (by exact_mod_cast Nat.zero_le s.modulo)]
  rw [show ((m : Nat) : Int) % ((s.modulo : Nat) : Int) = ((m % s.modulo : Nat) : Int)
    from by push_cast; rfl]
  exact Int.toNat_ofNat (m % s.modulo)

theorem value_neg_raw (b : Value) (hb : b.raw_value < b.shape.modulo) :
    b.neg.raw_value = (b.shape.modulo - b.raw_value) % b.shape.modulo := by
  unfold Value.neg
  have hM : 0 < b.shape.modulo := Nat.pos_pow_of_pos b.shape.n_bits (by omega)
  have hcast : ((b.shape.modulo : Nat) : Int) - (b.raw_value : Int)
      = ((b.shape.modulo - b.raw_value : Nat) : Int) := by
    push_cast [Nat.cast_sub (Nat.le_of_lt hb)]
    ring
  rw [hcast, value_make_ofNat]

/-- C1 (amended): each of `+ × & | ^` combines the operands' raw
residues with the corresponding integer operation and wraps the
result with the freshly auto-inferred unsigned shape
(`Shape.from_n` of the single raw result: `Shape.unsigned_for`),
retaining neither operand's shape and never truncating (the inferred
width always fits the result).  `//` does the same on a non-zero
divisor and raises `ZeroDivisionError` on a zero one.  `-` is *not*
`raw_a - raw_b`: it is `a + (-b)`, so the combined integer is
`raw_a + ((2^b.n_bits - raw_b) mod 2^b.n_bits)`, likewise wrapped
with the auto-inferred unsigned shape. -/
theorem C1_raw_domain_ops (a b : Value) (hb : b.raw_value < b.shape.modulo) :
    a.add b = some ⟨a.raw_value + b.raw_value,
      Shape.unsigned_for (a.raw_value + b.raw_value)⟩ ∧
    a.mul b = some ⟨a.raw_value * b.raw_value,
      Shape.unsigned_for (a.raw_value * b.raw_value)⟩ ∧
    a.land b = some ⟨a.raw_value &&& b.raw_value,
      Shape.unsigned_for (a.raw_value &&& b.raw_value)⟩ ∧
    a.lor b = some ⟨a.raw_value ||| b.raw_value,
      Shape.unsigned_for (a.raw_value ||| b.raw_value)⟩ ∧
    a.lxor b = some ⟨a.raw_value ^^^ b.raw_value,
      Shape.unsigned_for (a.raw_value ^^^ b.raw_value)⟩ ∧
    a.floordiv b = (if b.raw_value = 0 then none
      else some ⟨a.raw_value / b.raw_value,
        Shape.unsigned_for (a.raw_value / b.raw_value)⟩) ∧
    a.sub b = some ⟨a.raw_value + (b.shape.modulo - b.raw_value) % b.shape.modulo,
      Shape.unsigned_for
        (a.raw_value + (b.shape.modulo - b.raw_value) % b.shape.modulo)⟩ := by
  have hadd : ∀ x y : Nat, (x : Int) + (y : Int) = ((x + y : Nat) : Int) := by
    intro x y
    push_cast
    ring
  refine ⟨?_, ?_, ?_, ?_, ?_, ?_, ?_⟩
  · show Value.auto ((a.raw_value : Int) + (b.raw_value : Int)) = _
    rw [hadd, value_auto_ofNat]
  · show Value.auto ((a.raw_value : Int) * (b.raw_value : Int)) = _
    rw [show ((a.raw_value : Int) * (b.raw_value : Int))
        = ((a.raw_value * b.raw_value : Nat) : Int) from by push_cast; ring,
      value_auto_ofNat]
  · exact value_auto_ofNat _
  · exact value_auto_ofNat _
  · exact value_auto_ofNat _
  · by_cases h : b.raw_value = 0
    · simp [Value.floordiv, h]
    · simp only [Value.floordiv, h, if_false]
      exact value_auto_ofNat _
  · show Value.auto ((a.raw_value : Int) + (b.neg.raw_value : Int)) = _
    rw [value_neg_raw b hb, hadd, value_auto_ofNat]

/-- C1, witness: at `a = Value(5, Unsigned 3)`, `b = Value(1, Unsigned 1)`
the subtraction combines `5 + ((2 - 1) mod 2) = 6`, not `5 - 1 = 4`. -/
theorem C1_raw_domain_ops_w :
    (Value.mk 5 (Unsigned 3)).sub (Value.mk 1 (Unsigned 1)) =
      some ⟨6, Shape.unsigned_for 6⟩ :=
  (C1_raw_domain_ops (Value.mk 5 (Unsigned 3)) (Value.mk 1 (Unsigned 1))
    (by decide)).2.2.2.2.2.2

/-- C1, counterexample: for `a = Value(1, Signed 4)`,
`b = Value(15, Signed 4)` the code's `a - b` yields raw residue 2 with
shape `Unsigned 2`, while the claim's
`Shape.from_single(raw_a - raw_b)` recipe would give
`Value(raw_a - raw_b) = Value(-14)`, i.e. raw residue 18 with shape
`Signed 5`: the claimed description of `-` is false. -/
theorem C1_sub_cex :
    (Value.mk 1 (Signed 4)).sub (Value.mk 15 (Signed 4))
      = some (Value.mk 2 (Unsigned 2)) ∧
    Value.auto ((1 : Int) - 15) = some (Value.mk 18 (Signed 5)) ∧
    (Value.mk 2 (Unsigned 2) : Value) ≠ Value.mk 18 (Signed 5) :=
  ⟨rfl, rfl, by decide⟩

/-- Projection selecting resume actions. -/
def Act.getResume : Act → Option Nat
  | Act.resume k => some k
  | Act.trig _ => none

/-- Projection selecting `trigger()` actions. -/
def Act.getTrig : Act → Option Nat
  | Act.trig e => some e
  | Act.resume _ => none

theorem filterMap_getResume_comp_resume (l : List Nat) :
    l.filterMap (Act.getResume ∘ Act.resume) = l := by
  induction l with
  | nil => rfl
  | cons x xs ih => simp [Act.getResume, Function.comp, ih]

theorem filterMap_getResume_comp_trig (l : List Nat) :
    l.filterMap (Act.getResume ∘ Act.trig) = [] := by
  induction l with
  | nil => rfl
  | cons x xs ih => simp [Act.getResume, Function.comp, ih]

theorem filterMap_getTrig_comp_resume (l : List Nat) :
    l.filterMap (Act.getTrig ∘ Act.resume) = [] := by
  induction l with
  | nil => rfl
  | cons x xs ih => simp [Act.getTrig, Function.comp, ih]

theorem filterMap_getTrig_comp_trig (l : List Nat) :
    l.filterMap (Act.getTrig ∘ Act.trig) = l := by
  induction l with
  | nil => rfl
  | cons x xs ih => simp [Act.getTrig, Function.comp, ih]

theorem filterMap_getResume_resume (l : List Nat) :
    (l.map Act.resume).filterMap Act.getResume = l := by
  rw [List.filterMap_map, filterMap_getResume_comp_resume]

theorem filterMap_getResume_trig (l : List Nat) :
    (l.map Act.trig).filterMap Act.getResume = [] := by
  rw [List.filterMap_map, filterMap_getResume_comp_trig]

theorem filterMap_getTrig_resume (l : List Nat) :
    (l.map Act.resume).filterMap Act.getTrig = [] := by
  rw [List.filterMap_map, filterMap_getTrig_comp_resume]

theorem filterMap_getTrig_trig (l : List Nat) :
    (l.map Act.trig).filterMap Act.getTrig = l := by
  rw [List.filterMap_map, filterMap_getTrig_comp_trig]

/-- The events one `next()` call collects from a single task: the
flattened output of its head resume, or nothing if it is exhausted. -/
def headEvents : SimTask → List Nat
  | [] => []
  | o :: _ => flattenE o

theorem simNextCore_events (ts : List SimTask) :
    (simNextCore ts).1 = (ts.map headEvents).flatten := by
  induction ts with
  | nil => rfl
  | cons t ts ih =>
    cases t with
    | nil => simpa [simNextCore, headEvents] using ih
    | cons o os => simp [simNextCore, headEvents, ih]

/-- C4: within one in-loop round of `Simulator.run` the trace is
exactly all the resumes — one per currently active task, in list
(registration) order — followed by all the `trigger()` calls, which
fire in the flattened left-to-right order of the tasks' outputs
(the per-task flattened event lists concatenated in task order).
In particular no `trigger()` ever precedes a resume of the round. -/
theorem C4_round_phase_order (s : Sim) :
    (roundActs s).1.filterMap Act.getResume = List.range s.iterables.length ∧
    (roundActs s).1.filterMap Act.getTrig = (s.iterables.map headEvents).flatten ∧
    (roundActs s).1 =
      ((roundActs s).1.filterMap Act.getResume).map Act.resume ++
        ((roundActs s).1.filterMap Act.getTrig).map Act.trig := by
  have h1 : (roundActs s).1.filterMap Act.getResume
      = List.range s.iterables.length := by
    simp [roundActs, List.filterMap_append, filterMap_getResume_comp_resume,
      filterMap_getResume_comp_trig, filterMap_getResume_resume,
      filterMap_getResume_trig]
  have h2 : (roundActs s).1.filterMap Act.getTrig
      = (simNextCore s.iterables).1 := by
    simp [roundActs, List.filterMap_append, filterMap_getTrig_comp_resume,
      filterMap_getTrig_comp_trig, filterMap_getTrig_resume,
      filterMap_getTrig_trig]
  refine ⟨h1, ?_, ?_⟩
  · rw [h2, simNextCore_events]
  · rw [h1, h2]
    rfl

/-- C3 (amended): after its bounded loop, `run(d)` performs one extra
bare `next()`: the trace of `run` is the loop's trace followed by one
resume per still-active task (in order) and nothing else — in
particular the extra round contributes **no** `trigger()` call (its
collected events are discarded), finished tasks are still dropped,
and the tick counter is not advanced. -/
theorem C3_extra_round_no_trigger (s : Sim) (d : Nat) :
    (Simulator.run s d).1 =
      (runLoop (Sim.mk s.iterables 0) d).1 ++
        (List.range
          (runLoop (Sim.mk s.iterables 0) d).2.iterables.length).map Act.resume ∧
    (Simulator.run s d).1.filterMap Act.getTrig =
      (runLoop (Sim.mk s.iterables 0) d).1.filterMap Act.getTrig ∧
    (Simulator.run s d).2.iterables =
      (simNextCore (runLoop (Sim.mk s.iterables 0) d).2.iterables).2 ∧
    (Simulator.run s d).2.time = (runLoop (Sim.mk s.iterables 0) d).2.time := by
  refine ⟨rfl, ?_, rfl, rfl⟩
  show ((runLoop (Sim.mk s.iterables 0) d).1 ++
      (List.range
        (runLoop (Sim.mk s.iterables 0) d).2.iterables.length).map
          Act.resume).filterMap Act.getTrig = _
  rw [List.filterMap_append, filterMap_getTrig_resume, List.append_nil]

/-- C3, counterexample: one task that yields nothing on its first
resume and a `BaseEvent` (id 7) on its second.  `run(1)` does one
triggered round and then the extra `next()`, in which the task is
resumed and produces event 7 (second conjunct) — yet the complete
trace contains only the two resumes and **no** `trigger()` call,
refuting the claim that the extra round's outputs are triggered. -/
theorem C3_extra_round_cex :
    (Simulator.run (Sim.mk [[Out.junk, Out.ev 7]] 0) 1).1
      = [Act.resume 0, Act.resume 0] ∧
    (simNextCore [[Out.ev 7]]).1 = [7] := by
  constructor
  · have e0 : roundActs (Sim.mk [[Out.junk, Out.ev 7]] 0)
        = ([Act.resume 0], Sim.mk [[Out.ev 7]] 1) := rfl
    have e1 : runLoop (Sim.mk [[Out.junk, Out.ev 7]] 0) 1
        = ([Act.resume 0], Sim.mk [[Out.ev 7]] 1) := by
      rw [runLoop_step _ _ (by show 0 < 1; omega), e0]
      rw [runLoop_stop _ _ (by show 1 ≤ 1; omega)]
      rfl
    show (runLoop (Sim.mk [[Out.junk, Out.ev 7]] 0) 1).1 ++
        (List.range
          (runLoop (Sim.mk [[Out.junk, Out.ev 7]] 0) 1).2.iterables.length).map
            Act.resume = _
    rw [e1]
    rfl
  · rfl

theorem one_testBit (j : Nat) : (1 : Nat).testBit j = decide (j = 0) := by
  cases j <;> simp [Nat.testBit_succ]

theorem sliceBits_succ (raw s w n : Nat) :
    sliceBits raw s (w + 1) n =
      if s + w < n
      then sliceBits raw s w n ||| (((raw >>> (s + w)) &&& 1) <<< w)
      else sliceBits raw s w n := by
  unfold sliceBits
  rw [List.range_succ, List.foldl_append]
  rfl

theorem sliceBits_testBit (raw s n : Nat) : ∀ w i : Nat,
    (sliceBits raw s w n).testBit i =
      (decide (i < w) && (decide (s + i < n) && raw.testBit (s + i))) := by
  intro w
  induction w with
  | zero =>
    intro i
    show (0 : Nat).testBit i = _
    simp [Nat.zero_testBit]
  | succ w ih =>
    intro i
    rw [sliceBits_succ]
    by_cases hc : s + w < n
    · rw [if_pos hc, Nat.testBit_lor, ih, Nat.testBit_shiftLeft,
        Nat.testBit_land, Nat.testBit_shiftRight, one_testBit]
      rcases Nat.lt_trichotomy i w with hiw | hiw | hiw
      · have e1 : i < w + 1 := by omega
        have e2 : ¬ w ≤ i := by omega
        simp [hiw, e1, e2]
      · subst hiw
        have e1 : i < i + 1 := by omega
        have e2 : i ≥ i := le_refl i
        simp [e1, e2, hc]
      · have e1 : ¬ i < w := by omega
        have e2 : ¬ i < w + 1 := by omega
        have e3 : ¬ (i - w = 0) := by omega
        simp [e1, e2, e3]
    · rw [if_neg hc, ih]
      rcases Nat.lt_trichotomy i w with hiw | hiw | hiw
      · have e1 : i < w + 1 := by omega
        simp [hiw, e1]
      · subst hiw
        have e1 : i < i + 1 := by omega
        have e2 : ¬ i < i := by omega
        simp [e1, e2, hc]
      · have e1 : ¬ i < w := by omega
        have e2 : ¬ i < w + 1 := by omega
        simp [e1, e2]

theorem sliceBits_lt (raw s w n : Nat) : sliceBits raw s w n < 2 ^ w := by
  apply Nat.lt_pow_two_of_testBit
  intro i hi
  rw [sliceBits_testBit]
  simp [show ¬ i < w by omega]

theorem parse_slice_ok (v : Value) (high low : Int)
    (h1 : low ≤ high) (h2 : high ≤ (v.shape.n_bits : Int)) (h3 : 0 ≤ low) :
    v.parse_slice high low = .ok (low, high + 1) := by
  unfold Value.parse_slice
  rw [if_neg (by omega), if_neg (by omega), if_neg (by omega)]

theorem value_slice_ok (v : Value) (high low : Int)
    (h1 : low ≤ high) (h2 : high ≤ (v.shape.n_bits : Int)) (h3 : 0 ≤ low) :
    v.slice high low = .ok
      ⟨sliceBits v.raw_value low.toNat (high + 1 - low).toNat v.shape.n_bits,
        Unsigned (high + 1 - low).toNat⟩ := by
  unfold Value.slice
  rw [parse_slice_ok v high low h1 h2 h3]
  show Except.ok (Value.make
    ((sliceBits v.raw_value low.toNat (high + 1 - low).toNat v.shape.n_bits
      : Nat) : Int) (Unsigned (high + 1 - low).toNat)) = _
  rw [value_make_ofNat]
  congr 1
  congr 1
  exact Nat.mod_eq_of_lt
    (sliceBits_lt v.raw_value low.toNat (high + 1 - low).toNat v.shape.n_bits)

/-- C6: for `0 ≤ low ≤ high < n_bits`, `v[high:low]` succeeds and
returns an unsigned `Value` of width `high - low + 1` whose bit `i`
equals bit `low + i` of `v`'s raw residue (bits at and above the
width being zero); `v` itself is unchanged (the embedding is pure —
`__getitem__` only reads `self._value`). -/
theorem C6_slice_semantics (v : Value) (high low : Int)
    (h0 : 0 ≤ low) (h1 : low ≤ high) (h2 : high < (v.shape.n_bits : Int)) :
    ∃ r, v.slice high low = .ok r ∧
      r.shape = Unsigned (high + 1 - low).toNat ∧
      ∀ i : Nat, r.raw_value.testBit i =
        (decide (i < (high + 1 - low).toNat)
          && v.raw_value.testBit (low.toNat + i)) := by
  refine ⟨_, value_slice_ok v high low h1 (by omega) h0, rfl, ?_⟩
  intro i
  show (sliceBits v.raw_value low.toNat (high + 1 - low).toNat
      v.shape.n_bits).testBit i = _
  rw [sliceBits_testBit]
  by_cases hi : i < (high + 1 - low).toNat
  · have hin : low.toNat + i < v.shape.n_bits := by omega
    simp [hi, hin]
  · simp [hi]

/-- C6, witness: slicing bits `[2:1]` out of `Value(11, Unsigned(4))`
(raw `0b1011`) succeeds with width 2 and the stated bit mapping. -/
theorem C6_slice_semantics_w :
    ∃ r, (Value.mk 11 (Unsigned 4)).slice 2 1 = .ok r ∧
      r.shape = Unsigned ((2 : Int) + 1 - 1).toNat ∧
      ∀ i : Nat, r.raw_value.testBit i =
        (decide (i < ((2 : Int) + 1 - 1).toNat)
          && (Value.mk 11 (Unsigned 4)).raw_value.testBit ((1 : Int).toNat + i)) :=
  C6_slice_semantics (Value.mk 11 (Unsigned 4)) 2 1 (by decide) (by decide)
    (by decide)

theorem testBit_eq_of_mod_eq {x y : Nat} (t : Nat)
    (h : x % 2 ^ (t + 1) = y % 2 ^ (t + 1)) : x.testBit t = y.testBit t := by
  have hx := Nat.testBit_mod_two_pow x (t + 1) t
  have hy := Nat.testBit_mod_two_pow y (t + 1) t
  rw [show (decide (t < t + 1)) = true by simp] at hx hy
  rw [Bool.true_and] at hx hy
  rw [← hx, h, hy]

theorem pyAnd_neg_bits (r n m : Nat) (hr : r < 2 ^ n)
    (hm : ∀ j, n ≤ j → m.testBit j = false) :
    pyAnd ((r : Int) - ((2 ^ n : Nat) : Int)) m = r &&& m := by
  have hneg : ¬ (0 ≤ (r : Int) - ((2 ^ n : Nat) : Int)) := by
    have hcast : (r : Int) < ((2 ^ n : Nat) : Int) := by exact_mod_cast hr
    omega
  unfold pyAnd
  rw [if_neg hneg]
  apply Nat.eq_of_testBit_eq
  intro j
  rw [Nat.testBit_land, Nat.testBit_land]
  by_cases hmj : m.testBit j = true
  · have hjn : j < n := by
      by_contra hcon
      rw [hm j (by omega)] at hmj
      exact Bool.false_ne_true hmj
    have hjm : 2 ^ j ≤ m := by
      by_contra hcon
      rw [Nat.testBit_lt_two_pow (by omega)] at hmj
      exact Bool.false_ne_true hmj
    have hjK : j < m + 1 := by
      have h2 := Nat.lt_two_pow j
      omega
    have hpos1 : (0 : Int) < ((2 ^ (m + 1) : Nat) : Int) := by
      exact_mod_cast Nat.pos_pow_of_pos (m + 1) (by omega)
    have hdvd1 : ((2 ^ (j + 1) : Nat) : Int) ∣ ((2 ^ (m + 1) : Nat) : Int) := by
      push_cast
      exact pow_dvd_pow 2 (by omega)
    have hdvd2 : ((2 ^ (j + 1) : Nat) : Int) ∣ ((2 ^ n : Nat) : Int) := by
      push_cast
      exact pow_dvd_pow 2 (by omega)
    have hfe : ((r : Int) - ((2 ^ n : Nat) : Int)).fmod ((2 ^ (m + 1) : Nat) : Int)
        = ((r : Int) - ((2 ^ n : Nat) : Int)) % ((2 ^ (m + 1) : Nat) : Int) :=
      Int.fmod_eq_emod _ (le_of_lt hpos1)
    have hFnn : 0 ≤ ((r : Int) - ((2 ^ n : Nat) : Int)) % ((2 ^ (m + 1) : Nat) : Int) :=
      Int.emod_nonneg _ (ne_of_gt hpos1)
    have hkey : (((r : Int) - ((2 ^ n : Nat) : Int)).fmod
        ((2 ^ (m + 1) : Nat) : Int)).toNat % 2 ^ (j + 1) = r % 2 ^ (j + 1) := by
      have h1 : (((((r : Int) - ((2 ^ n : Nat) : Int)).fmod
          ((2 ^ (m + 1) : Nat) : Int)).toNat : Nat) : Int) % ((2 ^ (j + 1) : Nat) : Int)
          = ((r : Nat) : Int) % ((2 ^ (j + 1) : Nat) : Int) := by
        rw [hfe, Int.toNat_of_nonneg hFnn]
        rw [Int.emod_emod_of_dvd _ hdvd1]
        rw [Int.sub_emod]
        rw [Int.emod_eq_zero_of_dvd hdvd2]
        rw [sub_zero, Int.emod_emod_of_dvd _ dvd_rfl]
      exact_mod_cast h1
    rw [testBit_eq_of_mod_eq j hkey]
  · have hmf : m.testBit j = false := by
      cases h : m.testBit j
      · rfl
      · exact absurd h hmj
    rw [hmf]
    simp

theorem pyAnd_value_eq (v : Value) (hv : v.raw_value < v.shape.modulo) (m : Nat)
    (hm : ∀ j, v.shape.n_bits ≤ j → m.testBit j = false) :
    pyAnd v.value m = v.raw_value &&& m := by
  unfold Value.value
  by_cases hc : (v.raw_value : Int) > v.shape.maxv
  · rw [if_pos hc]
    exact pyAnd_neg_bits v.raw_value v.shape.n_bits m
      (by simpa [Shape.modulo] using hv) hm
  · rw [if_neg hc]
    unfold pyAnd
    rw [if_pos (Int.ofNat_nonneg v.raw_value)]
    rw [Int.toNat_ofNat]

theorem value_auto_raw (x : Int) (xv : Value) (hx : Value.auto x = some xv) :
    (xv.raw_value : Int) = x.fmod ((xv.shape.modulo : Nat) : Int)
      ∧ xv.raw_value < xv.shape.modulo := by
  unfold Value.auto at hx
  cases hs : Shape.from_n [x] with
  | none =>
    rw [hs] at hx
    exact absurd hx (by simp)
  | some s =>
    rw [hs] at hx
    simp only [Option.map] at hx
    injection hx with hx
    subst hx
    have hpos : (0 : Int) < ((s.modulo : Nat) : Int) := by
      exact_mod_cast Nat.pos_pow_of_pos s.n_bits (by omega)
    have hnn : 0 ≤ x.fmod ((s.modulo : Nat) : Int) := by
      rw [Int.fmod_eq_emod _ (le_of_lt hpos)]
      exact Int.emod_nonneg x (ne_of_gt hpos)
    have hlt : x.fmod ((s.modulo : Nat) : Int) < ((s.modulo : Nat) : Int) :=
      Int.fmod_lt_of_pos x hpos
    constructor
    · exact Int.toNat_of_nonneg hnn
    · show (x.fmod ((s.modulo : Nat) : Int)).toNat < s.modulo
      omega

theorem value_slice_assign_ok (v : Value) (high low x : Int) (xv : Value)
    (hx : Value.auto x = some xv)
    (h1 : low ≤ high) (h2 : high ≤ (v.shape.n_bits : Int)) (h3 : 0 ≤ low) :
    v.slice_assign high low x = .ok
      ⟨pyAnd v.value
          ((((1 <<< (high + 1 - low).toNat) - 1) <<< low.toNat)
            ^^^ (v.shape.modulo - 1)) |||
        ((if (high + 1 - low).toNat < xv.shape.n_bits
          then xv.raw_value % (1 <<< (high + 1 - low).toNat)
          else xv.raw_value) <<< low.toNat),
        v.shape⟩ := by
  unfold Value.slice_assign
  rw [hx, parse_slice_ok v high low h1 h2 h3]
  rfl

theorem slice_of_mk (m : Nat) (sh : Shape) (high low : Int)
    (h1 : low ≤ high) (h2 : high ≤ (sh.n_bits : Int)) (h3 : 0 ≤ low) :
    (Value.mk m sh).slice high low = .ok
      ⟨sliceBits m low.toNat (high + 1 - low).toNat sh.n_bits,
        Unsigned (high + 1 - low).toNat⟩ :=
  value_slice_ok (Value.mk m sh) high low h1 h2 h3

theorem merged_testBit (r n tw lw v0 : Nat)
    (hr : r < 2 ^ n) (hv0 : v0 < 2 ^ tw) (hln : lw + tw ≤ n) :
    ∀ j, ((r &&& (((2 ^ tw - 1) <<< lw) ^^^ (2 ^ n - 1))) ||| (v0 <<< lw)).testBit j
      = if lw ≤ j ∧ j < lw + tw then v0.testBit (j - lw) else r.testBit j := by
  intro j
  rw [Nat.testBit_lor, Nat.testBit_land, Nat.testBit_xor, Nat.testBit_shiftLeft,
    Nat.testBit_shiftLeft, Nat.testBit_two_pow_sub_one, Nat.testBit_two_pow_sub_one]
  by_cases hj1 : lw ≤ j
  · by_cases hj2 : j < lw + tw
    · have e1 : j - lw < tw := by omega
      have e2 : j < n := by omega
      rw [if_pos ⟨hj1, hj2⟩]
      simp [hj1, e1, e2]
    · rw [if_neg (by omega)]
      have e1 : ¬ j - lw < tw := by omega
      have e4 : v0.testBit (j - lw) = false :=
        Nat.testBit_lt_two_pow
          (lt_of_lt_of_le hv0 (Nat.pow_le_pow_right (by omega) (by omega)))
      by_cases e2 : j < n
      · simp [hj1, e1, e2, e4]
      · have e3 : r.testBit j = false :=
          Nat.testBit_lt_two_pow
            (lt_of_lt_of_le hr (Nat.pow_le_pow_right (by omega) (by omega)))
        simp [hj1, e1, e2, e3, e4]
  · rw [if_neg (by omega)]
    have e2 : j < n := by omega
    simp [hj1, e2]

theorem merged_lt (r n tw lw v0 : Nat)
    (hr : r < 2 ^ n) (hv0 : v0 < 2 ^ tw) (hln : lw + tw ≤ n) :
    ((r &&& (((2 ^ tw - 1) <<< lw) ^^^ (2 ^ n - 1))) ||| (v0 <<< lw)) < 2 ^ n := by
  apply Nat.lt_pow_two_of_testBit
  intro i hi
  rw [merged_testBit r n tw lw v0 hr hv0 hln i]
  rw [if_neg (by omega)]
  exact Nat.testBit_lt_two_pow
    (lt_of_lt_of_le hr (Nat.pow_le_pow_right (by omega) (by omega)))

/-- C5 (amended): for valid `0 ≤ low ≤ high < n_bits` and any assigned
integer `x` for which the auto-shape wrapping `Value(x)` succeeds (it
raises for `x = -1`), `v[high:low] = x` succeeds, keeps `v`'s shape and
invariant, and preserves every bit outside `[low, high]`; reading the
slice back yields `xv.raw mod 2^(slice width)` as an unsigned value of
the slice width, where `xv.raw = x mod 2^(auto-inferred width of x)`.
When the inferred width is at least the slice width this equals the
claimed `x mod 2^(high-low+1)` (final conjunct) — but for a negative
`x` whose inferred two's-complement width is smaller than the slice the
stored residue is the narrower one, not `x mod 2^(slice width)`. -/
theorem C5_slice_assign_roundtrip (v : Value) (high low x : Int) (xv : Value)
    (hv : v.raw_value < v.shape.modulo)
    (hx : Value.auto x = some xv)
    (h0 : 0 ≤ low) (h1 : low ≤ high) (h2 : high < (v.shape.n_bits : Int)) :
    ∃ v2, v.slice_assign high low x = .ok v2 ∧
      v2.shape = v.shape ∧
      v2.raw_value < v.shape.modulo ∧
      v2.slice high low = .ok
        ⟨xv.raw_value % 2 ^ (high + 1 - low).toNat,
          Unsigned (high + 1 - low).toNat⟩ ∧
      (∀ j : Nat, j < low.toNat ∨ high.toNat < j →
        v2.raw_value.testBit j = v.raw_value.testBit j) ∧
      ((high + 1 - low).toNat ≤ xv.shape.n_bits →
        ((xv.raw_value % 2 ^ (high + 1 - low).toNat : Nat) : Int)
          = x.fmod ((2 ^ (high + 1 - low).toNat : Nat) : Int)) := by
  obtain ⟨hxr, hxlt⟩ := value_auto_raw x xv hx
  have hone : (1 : Nat) <<< (high + 1 - low).toNat
      = 2 ^ (high + 1 - low).toNat := by
    rw [Nat.shiftLeft_eq, one_mul]
  have hln : low.toNat + (high + 1 - low).toNat ≤ v.shape.n_bits := by omega
  have hrlt : v.raw_value < 2 ^ v.shape.n_bits := by
    simpa [Shape.modulo] using hv
  have hv0e : (if (high + 1 - low).toNat < xv.shape.n_bits
      then xv.raw_value % 2 ^ (high + 1 - low).toNat
      else xv.raw_value) = xv.raw_value % 2 ^ (high + 1 - low).toNat := by
    by_cases hc : (high + 1 - low).toNat < xv.shape.n_bits
    · rw [if_pos hc]
    · rw [if_neg hc]
      have hm : xv.raw_value < 2 ^ xv.shape.n_bits := by
        simpa [Shape.modulo] using hxlt
      have hxlt2 : xv.raw_value < 2 ^ (high + 1 - low).toNat :=
        lt_of_lt_of_le hm (Nat.pow_le_pow_right (by omega) (by omega))
      rw [Nat.mod_eq_of_lt hxlt2]
  have hv0lt : xv.raw_value % 2 ^ (high + 1 - low).toNat
      < 2 ^ (high + 1 - low).toNat := Nat.mod_lt _ (by positivity)
  have hmask_high : ∀ j, v.shape.n_bits ≤ j →
      ((((2 ^ (high + 1 - low).toNat - 1) <<< low.toNat)
        ^^^ (2 ^ v.shape.n_bits - 1)).testBit j) = false := by
    intro j hj
    rw [Nat.testBit_xor, Nat.testBit_shiftLeft, Nat.testBit_two_pow_sub_one,
      Nat.testBit_two_pow_sub_one]
    have e1 : ¬ j - low.toNat < (high + 1 - low).toNat := by omega
    have e2 : ¬ j < v.shape.n_bits := by omega
    simp [e1, e2]
  have hpy := pyAnd_value_eq v hv
    ((((2 ^ (high + 1 - low).toNat - 1) <<< low.toNat)
      ^^^ (2 ^ v.shape.n_bits - 1))) hmask_high
  have hassign := value_slice_assign_ok v high low x xv hx h1 (le_of_lt h2) h0
  rw [hone, hv0e, show v.shape.modulo = 2 ^ v.shape.n_bits from rfl, hpy]
    at hassign
  refine ⟨_, hassign, rfl, ?_, ?_, ?_, ?_⟩
  · show (v.raw_value &&& (((2 ^ (high + 1 - low).toNat - 1) <<< low.toNat)
        ^^^ (2 ^ v.shape.n_bits - 1)))
      ||| ((xv.raw_value % 2 ^ (high + 1 - low).toNat) <<< low.toNat)
      < v.shape.modulo
    exact merged_lt v.raw_value v.shape.n_bits (high + 1 - low).toNat low.toNat
      (xv.raw_value % 2 ^ (high + 1 - low).toNat) hrlt hv0lt hln
  · rw [slice_of_mk _ v.shape high low h1 (le_of_lt h2) h0]
    congr 2
    apply Nat.eq_of_testBit_eq
    intro i
    rw [sliceBits_testBit]
    rw [merged_testBit v.raw_value v.shape.n_bits (high + 1 - low).toNat
      low.toNat (xv.raw_value % 2 ^ (high + 1 - low).toNat) hrlt hv0lt hln
      (low.toNat + i)]
    by_cases hi : i < (high + 1 - low).toNat
    · rw [if_pos (by omega)]
      have e2 : low.toNat + i < v.shape.n_bits := by omega
      have e3 : low.toNat + i - low.toNat = i := by omega
      simp [hi, e2, e3]
    · rw [if_neg (by omega)]
      have eR : (xv.raw_value % 2 ^ (high + 1 - low).toNat).testBit i = false :=
        Nat.testBit_lt_two_pow
          (lt_of_lt_of_le hv0lt (Nat.pow_le_pow_right (by omega) (by omega)))
      simp [hi, eR]
  · intro j hj
    show ((v.raw_value &&& (((2 ^ (high + 1 - low).toNat - 1) <<< low.toNat)
        ^^^ (2 ^ v.shape.n_bits - 1)))
      ||| ((xv.raw_value % 2 ^ (high + 1 - low).toNat) <<< low.toNat)).testBit j
      = v.raw_value.testBit j
    rw [merged_testBit v.raw_value v.shape.n_bits (high + 1 - low).toNat
      low.toNat (xv.raw_value % 2 ^ (high + 1 - low).toNat) hrlt hv0lt hln j]
    rw [if_neg (by omega)]
  · intro hw
    have hMpos : (0 : Int) < ((xv.shape.modulo : Nat) : Int) := by
      exact_mod_cast Nat.pos_pow_of_pos xv.shape.n_bits (by omega)
    have htpos : (0 : Int) < ((2 ^ (high + 1 - low).toNat : Nat) : Int) := by
      exact_mod_cast Nat.pos_pow_of_pos (high + 1 - low).toNat (by omega)
    have hdvd : ((2 ^ (high + 1 - low).toNat : Nat) : Int)
        ∣ ((xv.shape.modulo : Nat) : Int) := by
      have hnat : (2 ^ (high + 1 - low).toNat : Nat) ∣ 2 ^ xv.shape.n_bits :=
        pow_dvd_pow 2 hw
      exact_mod_cast hnat
    calc ((xv.raw_value % 2 ^ (high + 1 - low).toNat : Nat) : Int)
        = (xv.raw_value : Int) % ((2 ^ (high + 1 - low).toNat : Nat) : Int) := by
          push_cast
          rfl
      _ = x.fmod ((xv.shape.modulo : Nat) : Int)
          % ((2 ^ (high + 1 - low).toNat : Nat) : Int) := by rw [hxr]
      _ = x % ((xv.shape.modulo : Nat) : Int)
          % ((2 ^ (high + 1 - low).toNat : Nat) : Int) := by
          rw [Int.fmod_eq_emod _ (le_of_lt hMpos)]
      _ = x % ((2 ^ (high + 1 - low).toNat : Nat) : Int) :=
          Int.emod_emod_of_dvd x hdvd
      _ = x.fmod ((2 ^ (high + 1 - low).toNat : Nat) : Int) :=
          (Int.fmod_eq_emod x (le_of_lt htpos)).symm

/-- C5, witness: assigning `-5` into bits `[4:0]` of
`Value(0, Unsigned(8))` (the auto shape of `-5` is `Signed(4)`, raw
residue 11) and reading the slice back. -/
theorem C5_slice_assign_roundtrip_w :
    ∃ v2, (Value.mk 0 (Unsigned 8)).slice_assign 4 0 (-5) = .ok v2 ∧
      v2.shape = (Value.mk 0 (Unsigned 8)).shape ∧
      v2.raw_value < (Value.mk 0 (Unsigned 8)).shape.modulo ∧
      v2.slice 4 0 = .ok
        ⟨(Value.mk 11 (Signed 4)).raw_value % 2 ^ ((4 : Int) + 1 - 0).toNat,
          Unsigned ((4 : Int) + 1 - 0).toNat⟩ ∧
      (∀ j : Nat, j < (0 : Int).toNat ∨ (4 : Int).toNat < j →
        v2.raw_value.testBit j = (Value.mk 0 (Unsigned 8)).raw_value.testBit j) ∧
      (((4 : Int) + 1 - 0).toNat ≤ (Value.mk 11 (Signed 4)).shape.n_bits →
        (((Value.mk 11 (Signed 4)).raw_value
            % 2 ^ ((4 : Int) + 1 - 0).toNat : Nat) : Int)
          = (-5 : Int).fmod ((2 ^ ((4 : Int) + 1 - 0).toNat : Nat) : Int)) :=
  C5_slice_assign_roundtrip (Value.mk 0 (Unsigned 8)) 4 0 (-5)
    (Value.mk 11 (Signed 4)) (by decide) rfl (by decide) (by decide) (by decide)

/-- C5, counterexample: `v = Value(0, Unsigned(8))`,
`v[4:0] = -5` followed by `v[4:0]` returns raw residue 11 (the
`Signed(4)` two's-complement residue of `-5`, not sign-extended to the
5-bit slice), while the claim demands `-5 mod 2^5 = 27`. -/
theorem C5_neg_narrow_cex :
    ((Value.mk 0 (Unsigned 8)).slice_assign 4 0 (-5)).bind
        (fun v2 => v2.slice 4 0)
      = .ok (Value.mk 11 (Unsigned 5)) ∧
    ((-5 : Int).fmod (2 ^ 5)).toNat = 27 ∧
    (Value.mk 11 (Unsigned 5) : Value) ≠ Value.mk 27 (Unsigned 5) :=
  ⟨rfl, rfl, by decide⟩
